import Mathlib

/-!
Verification development for the health-trends ingestion/reconciliation
frontend (`ImportFiles.tsx`, `SymptomsVsCategories.tsx`, `MachineLearning.tsx`).

Strings are shallowly embedded as `List Char` (`Str`).  JavaScript string
primitives used by the code (`trim`, `toLowerCase` on ASCII data, `split(',')`,
`includes`, template quoting) are given executable models below; each model is
named after, and translated from, the source function it embeds.
-/

namespace HT

/-- Strings of the embedded program. -/
abbrev Str := List Char

/-- Model of JavaScript `String.prototype.toLowerCase` on a single character
(ASCII case mapping, which is the case relevant to the data handled here). -/
def lowerChar (c : Char) : Char :=
  if 'A' ≤ c ∧ c ≤ 'Z' then Char.ofNat (c.toNat + 32) else c

/-- Model of `s.toLowerCase()`. -/
def lowerStr (s : Str) : Str := s.map lowerChar

/-- Whitespace characters stripped by `String.prototype.trim` (the ASCII ones
occurring in the data: space, tab, newline, carriage return). -/
def isJsSpace (c : Char) : Bool := c = ' ' || c = '\t' || c = '\n' || c = '\r'

/-- Model of `s.trim()`: drop whitespace from both ends. -/
def trimStr (s : Str) : Str :=
  ((s.dropWhile isJsSpace).reverse.dropWhile isJsSpace).reverse

/-- Model of `list.map(s => s.trim()).filter(Boolean)` as used on the scan and
unassigned-symptom responses in `SymptomsVsCategories.tsx`. -/
def cleanList (xs : List Str) : List Str :=
  (xs.map trimStr).filter (fun s => !s.isEmpty)

/-- One insertion step of the first-wins, insertion-ordered key map that the
merge loops build with `if (!mergedMap.has(k)) mergedMap.set(k, s)`. -/
def insertFirstBy {α κ : Type} [DecidableEq κ] (key : α → κ)
    (acc : List α) (x : α) : List α :=
  if acc.any (fun y => decide (key y = key x)) then acc else acc ++ [x]

/-- Values of a first-wins key map built by inserting `xs` in order
(JavaScript `Map` iteration order is insertion order). -/
def dedupByKey {α κ : Type} [DecidableEq κ] (key : α → κ) (xs : List α) : List α :=
  xs.foldl (insertFirstBy key) []

/-- The merged worklist of `handleScan`/`silentScan`: insert the Taxonomy
Store's unassigned display strings first, then the raw scan strings, first
occurrence per lowercased key wins. -/
def mergedList (unassignedList missingNew : List Str) : List Str :=
  dedupByKey lowerStr (unassignedList ++ missingNew)

/-- A normalized key `k` has a representative in `l`. -/
def hasKey {α κ : Type} (key : α → κ) (l : List α) (k : κ) : Prop :=
  ∃ t ∈ l, key t = k

/-- Classification of a merged worklist item, from the `typeMap` construction:
`existing_null` when the key is among the unassigned Store symptoms, else
`new` (the source's redundant second check is kept as written). -/
inductive Cls
  | clsNew
  | clsExistingNull
deriving DecidableEq

/-- The `typeMap` entry for normalized key `k`
(`unassignedNorms.has(k) ? 'existing_null' : (missingNorms.has(k) ? 'new' : 'new')`). -/
def classifyType (unassignedNorms missingNorms : List Str) (k : Str) : Cls :=
  if unassignedNorms.contains k then Cls.clsExistingNull
  else if missingNorms.contains k then Cls.clsNew else Cls.clsNew

/-- The visible state of the missing-symptoms worklist page that `silentScan`
may update: `result` (inserted count and `missing_items`), `missingTypes`,
`selections` (a selection is `none` for the empty `''` choice) and `page`.
`lastRefreshedAt`/`refreshing` are bookkeeping outside the claims' scope. -/
structure WorkState where
  result : Option (Nat × List Str)
  missingTypes : List (Str × Cls)
  selections : List (Str × Option Nat)
  page : Nat
deriving DecidableEq

/-- The current displayed worklist,
`(result?.missing_items ?? []).map(s => s.trim()).filter(Boolean)`. -/
def currentWorklist (st : WorkState) : List Str :=
  cleanList ((st.result.map Prod.snd).getD [])

/-- The change test of `silentScan`: sizes of the two normalized-key sets
differ, or some key of the new set is missing from the current set. -/
def scanChanged (currentList mergedL : List Str) : Bool :=
  let curKeys := (currentList.map lowerStr).dedup
  let newKeys := (mergedL.map lowerStr).dedup
  if curKeys.length ≠ newKeys.length then true
  else newKeys.any (fun k => !(curKeys.contains k))

/-- The worklist produced by a scan from the unassigned-symptom strings and the
raw scan strings, after cleaning and first-wins merging. -/
def newWorklist (unassignedRaw missingRaw : List Str) : List Str :=
  mergedList (cleanList unassignedRaw) (cleanList missingRaw)

/-- One completed background reconciliation scan (`silentScan` in
`SymptomsVsCategories.tsx`): clean both server lists, merge them, compare
normalized-key sets with the current worklist, and only on a detected change
replace `result`, rebuild `missingTypes`, carry over `selections`
(`prev[s] ?? ''`) and reset the page. -/
def silentScanStep (st : WorkState) (inserted : Nat)
    (unassignedRaw missingRaw : List Str) : WorkState :=
  let unassignedList := cleanList unassignedRaw
  let missingNew := cleanList missingRaw
  let mergedL := mergedList unassignedList missingNew
  if scanChanged (currentWorklist st) mergedL then
    { result := some (inserted, mergedL)
      missingTypes := mergedL.map (fun s =>
        (s, classifyType (unassignedList.map lowerStr) (missingNew.map lowerStr) (lowerStr s)))
      selections := mergedL.map (fun s => (s, (st.selections.lookup s).getD none))
      page := 1 }
  else st

/-! ### Import wizard (`ImportFiles.tsx`): upload gate, commit request, gating -/

/-- Import mode selected in the wizard. -/
inductive Mode
  | append
  | overwrite
deriving DecidableEq

/-- The JSON body of the commit request.  `confirmed` is an optional field of
the commit input shape `{token, mode, confirmed?}`; `none` models the key
being absent from the serialized body. -/
structure CommitBody where
  token : Str
  mode : Mode
  confirmed : Option Bool
deriving DecidableEq

/-- The body `handleCommit` serializes,
`JSON.stringify({ token, mode })`: only the token and the mode. -/
def handleCommitBody (token : Str) (importMode : Mode) : CommitBody :=
  { token := token, mode := importMode, confirmed := none }

/-- Wizard steps. -/
inductive StepTag
  | select
  | preview
  | chooseMode
  | importing
  | done
  | manual
deriving DecidableEq

/-- Model of `startImport` followed by `handleCommit`'s request emission:
`startImport` returns early when `canImport` is false (step unchanged, no
request); otherwise the step becomes `importing` and `handleCommit` posts the
commit body unless the token is empty (its `if (!token) return` guard).
The server's response handling is outside the claims' scope. -/
def startImportModel (canImport : Bool) (step : StepTag) (token : Str)
    (importMode : Mode) : StepTag × List CommitBody :=
  if !canImport then (step, [])
  else if token.isEmpty then (StepTag.importing, [])
  else (StepTag.importing, [handleCommitBody token importMode])

/-- The preview step's `Next: choose import mode` button is disabled exactly
when `canImport` is false (`disabled={!canImport}`). -/
def previewNextDisabled (canImport : Bool) : Bool := !canImport

/-- The mode step's `Start import` button gate,
`disabled={!canImport || loading || (mode === 'overwrite' && !overwriteConfirmed)}`. -/
def startImportDisabled (canImport loading : Bool) (importMode : Mode)
    (overwriteConfirmed : Bool) : Bool :=
  !canImport || loading || (decide (importMode = Mode.overwrite) && !overwriteConfirmed)

/-- Outcome of the size gate at the top of `handleUpload`. -/
inductive UploadOutcome
  | tooLargeError
  | previewRequestSent
deriving DecidableEq

/-- The pre-parse size gate of `handleUpload`: a file whose byte size exceeds
`MAX_UPLOAD_MB * 1024 * 1024` raises the file-too-large error before the
`FormData` is built, so no preview request is sent; otherwise the preview
request is posted. -/
def handleUploadGate (fileSize maxUploadMB : Nat) : UploadOutcome :=
  if fileSize > maxUploadMB * 1024 * 1024 then UploadOutcome.tooLargeError
  else UploadOutcome.previewRequestSent

/-! ### Risk-factor tokenization (`ImportFiles.tsx`) -/

/-- Model of JavaScript `value.split(',')`: split on every plain ASCII comma,
keeping empty pieces (`"".split(',')` is `[""]`). -/
def splitComma : Str → List Str
  | [] => [[]]
  | c :: rest =>
    if c = ',' then [] :: splitComma rest
    else
      match splitComma rest with
      | [] => [[c]]
      | f :: fs => (c :: f) :: fs

/-- The full-width (Chinese) comma character U+FF0C. -/
def fullComma : Char := '，'

/-- `formatMRiskFactors`: empty or blank input yields no tokens, otherwise
split on the plain comma, trim each token and drop empties. -/
def formatMRiskFactors (value : Str) : List Str :=
  if value.isEmpty || (trimStr value).isEmpty then []
  else ((splitComma value).map trimStr).filter (fun f => !f.isEmpty)

/-- The formatting-error message shown for a full-width comma. -/
def chineseCommaMsg : Str :=
  "Please use English comma (,) instead of Chinese comma (，)".toList

/-- The error message shown when no valid factor remains after splitting. -/
def invalidFactorsMsg : Str := "Please enter valid risk factors".toList

/-- The `M-Risk Factors` validation of `updateManualCell`: empty is allowed,
a full-width comma is a formatting error, and otherwise at least one nonempty
trimmed token must remain. -/
def mRiskCellError (val : Str) : Option Str :=
  let v := trimStr val
  if v.isEmpty then none
  else if v.contains fullComma then some chineseCommaMsg
  else if (((splitComma v).map trimStr).filter (fun f => !f.isEmpty)).isEmpty then
    some invalidFactorsMsg
  else none

/-! ### Feature-symptom matching (`MachineLearning.tsx`, `rfMatchMap`) -/

/-- Characters kept by the normalization regex `[^a-z0-9]+` (the input is
already lowercased when the regex runs). -/
def isLowerAlnum (c : Char) : Bool := ('a' ≤ c && c ≤ 'z') || ('0' ≤ c && c ≤ '9')

/-- Scanner for `.replace(/[^a-z0-9]+/g, ' ')`: each maximal run of
non-alphanumeric characters becomes a single space; the flag records being
inside such a run. -/
def collapseRunsAux : Bool → Str → Str
  | _, [] => []
  | inRun, c :: rest =>
    if isLowerAlnum c then c :: collapseRunsAux false rest
    else if inRun then collapseRunsAux true rest
    else ' ' :: collapseRunsAux true rest

/-- `.replace(/[^a-z0-9]+/g, ' ')` on a lowercased string. -/
def collapseRuns (s : Str) : Str := collapseRunsAux false s

/-- Scanner for `.replace(/\s+/g, ' ')`: each maximal whitespace run becomes
a single space. -/
def collapseWsAux : Bool → Str → Str
  | _, [] => []
  | inRun, c :: rest =>
    if isJsSpace c then
      (if inRun then collapseWsAux true rest else ' ' :: collapseWsAux true rest)
    else c :: collapseWsAux false rest

/-- `.replace(/\s+/g, ' ')`. -/
def collapseWs (s : Str) : Str := collapseWsAux false s

/-- The case-independent tail of `normalize`: collapse non-alphanumeric runs,
collapse whitespace, trim. -/
def normCore (s : Str) : Str := trimStr (collapseWs (collapseRuns s))

/-- The `normalize` helper of `rfMatchMap`: lowercase, replace non-alphanumeric
runs with a space, collapse whitespace, trim. -/
def normalize (s : Str) : Str := normCore (lowerStr s)

/-- `.replace(/_/g, ' ')` on one character. -/
def underscoreToSpace (c : Char) : Char := if c = '_' then ' ' else c

/-- `.replace(/^rf_/i, '')`: strip a leading `rf_` with `r` and `f` in either
case; the underscore is matched literally. -/
def stripRf : Str → Str
  | a :: b :: c :: rest =>
    if (a = 'r' ∨ a = 'R') ∧ (b = 'f' ∨ b = 'F') ∧ c = '_' then rest
    else a :: b :: c :: rest
  | s => s

/-- The `rfNormalize` helper:
`normalize(s.replace(/^rf_/i, '').replace(/_/g, ' '))`. -/
def rfNormalize (s : Str) : Str := normalize ((stripRf s).map underscoreToSpace)

/-- A Taxonomy Store symptom row as consumed by `rfMatchMap`. -/
structure SymptomItem where
  symptom : Str
  categoryId : Option Nat
deriving DecidableEq

/-- The `byNorm` reverse index: map every symptom to its normalized name,
drop empty norms, first symptom per norm wins. -/
def buildByNorm (items : List SymptomItem) : List (Str × SymptomItem) :=
  dedupByKey Prod.fst
    ((items.map (fun it => (normalize it.symptom, it))).filter (fun p => !p.1.isEmpty))

/-- The `rfMatchMap` entry for one feature identifier: look its normalized key
up in the reverse index (`byNorm[key]`), `none` when unmatched. -/
def rfMatchLookup (items : List SymptomItem) (rf : Str) : Option SymptomItem :=
  (buildByNorm items).lookup (rfNormalize rf)

/-! ### Manual-input dates (`ImportFiles.tsx`: `addDays`, `updateManualCell`) -/

/-- Numeric value of an ASCII digit. -/
def digitVal (c : Char) : Option Nat :=
  if '0' ≤ c ∧ c ≤ '9' then some (c.toNat - 48) else none

/-- Gregorian leap-year rule. -/
def isLeapYear (y : Nat) : Bool := (y % 4 == 0 && y % 100 != 0) || (y % 400 == 0)

/-- A civil calendar date. -/
structure Ymd where
  year : Nat
  month : Nat
  day : Nat
deriving DecidableEq

/-- Days in a Gregorian month. -/
def daysInMonth (y m : Nat) : Nat :=
  if m = 2 then (if isLeapYear y then 29 else 28)
  else if m = 4 ∨ m = 6 ∨ m = 9 ∨ m = 11 then 30
  else 31

/-- Model of `Date.parse` restricted to the strict `YYYY-MM-DD` date-only form
(the only form the wizard's DatePicker emits, `d.format('YYYY-MM-DD')`):
shape and calendar validity are checked, anything else is `NaN`, modelled as
`none`.  Per ECMAScript a date-only string denotes midnight UTC of that civil
date; the result here is that civil date (the UTC components of the parsed
instant). -/
def parseYmd (s : Str) : Option Ymd :=
  match s with
  | [y1, y2, y3, y4, s1, m1, m2, s2, d1, d2] =>
    if s1 = '-' ∧ s2 = '-' then
      match digitVal y1, digitVal y2, digitVal y3, digitVal y4,
            digitVal m1, digitVal m2, digitVal d1, digitVal d2 with
      | some a, some b, some c, some d, some e, some f, some g, some i =>
        let y := ((a * 10 + b) * 10 + c) * 10 + d
        let mo := e * 10 + f
        let da := g * 10 + i
        if 1 ≤ mo ∧ mo ≤ 12 ∧ 1 ≤ da ∧ da ≤ daysInMonth y mo then
          some { year := y, month := mo, day := da }
        else none
      | _, _, _, _, _, _, _, _ => none
    else none
  | _ => none

/-- The next civil day, rolling over month and year ends (the normalization
`Date.prototype.setDate` performs on day overflow). -/
def nextDay (t : Ymd) : Ymd :=
  if t.day < daysInMonth t.year t.month then { t with day := t.day + 1 }
  else if t.month < 12 then { year := t.year, month := t.month + 1, day := 1 }
  else { year := t.year + 1, month := 1, day := 1 }

/-- `d.setDate(d.getDate() + n)` as `n` single-day steps. -/
def addDaysYmd (t : Ymd) : Nat → Ymd
  | 0 => t
  | n + 1 => nextDay (addDaysYmd t n)

/-- `String(n).padStart(2, '0')`. -/
def pad2 (n : Nat) : Str :=
  if n < 10 then '0' :: (Nat.repr n).toList else (Nat.repr n).toList

/-- The `formatDate` helper: `` `${y}-${m}-${day}` `` with two-digit month and
day. -/
def formatYmd (t : Ymd) : Str :=
  (Nat.repr t.year).toList ++ '-' :: pad2 t.month ++ '-' :: pad2 t.day

/-- The previous civil day, rolling back over month and year starts. -/
def prevDay (t : Ymd) : Ymd :=
  if 1 < t.day then { t with day := t.day - 1 }
  else if 1 < t.month then
    { year := t.year, month := t.month - 1, day := daysInMonth t.year (t.month - 1) }
  else { year := t.year - 1, month := 12, day := daysInMonth (t.year - 1) 12 }

/-- The local civil date of the instant "midnight UTC of `t`" in an
environment whose fixed UTC offset is `off` minutes: the same date when the
clock is at or ahead of UTC, the previous date when it is behind UTC.  (Every
real-world offset satisfies `-1440 < off < 1440`, so the shift is at most one
day.) -/
def localCivilDate (off : Int) (t : Ymd) : Ymd :=
  if off < 0 then prevDay t else t

/-- The `addDays` helper in an environment with UTC offset `off` minutes:
`Date.parse(base)` reads the date-only string as midnight UTC (`''` on `NaN`),
but `getDate`/`setDate` and `formatDate` all use local-time components — so
the day arithmetic and the formatted result are based on the local civil date
of that instant, which for a clock behind UTC is the previous day. -/
def addDaysStr (off : Int) (base : Str) (days : Nat) : Str :=
  match parseYmd base with
  | none => []
  | some t => formatYmd (addDaysYmd (localCivilDate off t) days)

/-- Column-name constant. -/
def startDateCol : Str := "Start date".toList

/-- Column-name constant. -/
def endDateCol : Str := "End date".toList

/-- `{ ...r, [k]: v }` on a row that carries the key `k`. -/
def setCell (r : List (Str × Str)) (k v : Str) : List (Str × Str) :=
  r.map (fun p => if p.1 = k then (p.1, v) else p)

/-- `updateManualCell`'s row update in an environment with UTC offset `off`
minutes: editing `Start date` also rewrites `End date` to
`val ? addDays(val, 6) : \'\'`; any other key is set directly.
(Rows always carry all nine manual columns.) -/
def updateManualCellRow (off : Int) (r : List (Str × Str)) (k v : Str) :
    List (Str × Str) :=
  if k = startDateCol then
    setCell (setCell r startDateCol v) endDateCol
      (if v.isEmpty then [] else addDaysStr off v 6)
  else setCell r k v

/-- Which manual-table cell editors are rendered disabled: only the `End date`
column renders `<Input disabled .../>`. -/
def manualCellDisabled (c : Str) : Bool := c = endDateCol

/-! ### Manual-input CSV generation (`submitManualAsCsv`) and a CSV reader -/

/-- The fixed manual-input column list. -/
def manualColumns : List Str :=
  ["PersonID".toList, "Start date".toList, "End date".toList,
   "M-Risk Factors".toList, "Gender".toList, "Age".toList,
   "MNA".toList, "BMI".toList, "Weight".toList]

/-- The cell value committed to CSV before quoting: the trimmed cell, except
that an empty `M-Risk Factors` cell becomes the literal `none`
(`if (k === 'M-Risk Factors' && value === '') value = 'none'`). -/
def transCell (col v : Str) : Str :=
  let value := trimStr v
  if col = "M-Risk Factors".toList ∧ value.isEmpty then "none".toList else value

/-- `value.replace(/"/g, '""')`. -/
def doubleQuotes (s : Str) : Str :=
  s.flatMap (fun c => if c = '"' then ['"', '"'] else [c])

/-- The quoting test `/[",\n]/.test(value)`. -/
def hasSpecial (s : Str) : Bool := s.any (fun c => c = '"' || c = ',' || c = '\n')

/-- One serialized cell: double embedded quotes, then wrap in double quotes
when the result contains a quote, comma or newline. -/
def escapeCell (col v : Str) : Str :=
  let value := doubleQuotes (transCell col v)
  if hasSpecial value then '"' :: value ++ ['"'] else value

/-- JavaScript `Array.prototype.join(sep)`. -/
def joinSep (sep : Str) : List Str → Str
  | [] => []
  | [x] => x
  | x :: xs => x ++ sep ++ joinSep sep xs

/-- One generated CSV line,
`manualColumns.map(k => escape(r[k])).join(',')`; a row is its nine cell
values in `manualColumns` order. -/
def serializeRow (r : List Str) : Str :=
  joinSep [','] ((manualColumns.zip r).map (fun p => escapeCell p.1 p.2))

/-- The generated CSV text, `[headers, ...lines].join('\n')` with
`headers = manualColumns.join(',')`. -/
def csvText (rows : List (List Str)) : Str :=
  joinSep ['\n'] (joinSep [','] manualColumns :: rows.map serializeRow)

/-- Reader states of a standard CSV reader: outside quotes, inside quotes,
and just after a quote seen inside quotes (escape lookahead). -/
inductive QState
  | outQ
  | inQ
  | seenQ
deriving DecidableEq

/-- A standard (RFC 4180 style) CSV reader over the generated text, one
character at a time: `field` is the current field, `fs` the fields of the
current record, `rs` the finished records.  A doubled quote inside a quoted
field is a literal quote; comma and newline outside quotes end the field and
the record. -/
def parseCsvAux : Str → QState → Str → List Str → List (List Str) → List (List Str)
  | [], _, field, fs, rs => rs ++ [fs ++ [field]]
  | c :: rest, st, field, fs, rs =>
    match st with
    | QState.inQ =>
      if c = '"' then parseCsvAux rest QState.seenQ field fs rs
      else parseCsvAux rest QState.inQ (field ++ [c]) fs rs
    | QState.seenQ =>
      if c = '"' then parseCsvAux rest QState.inQ (field ++ ['"']) fs rs
      else if c = ',' then parseCsvAux rest QState.outQ [] (fs ++ [field]) rs
      else if c = '\n' then parseCsvAux rest QState.outQ [] [] (rs ++ [fs ++ [field]])
      else parseCsvAux rest QState.outQ (field ++ [c]) fs rs
    | QState.outQ =>
      if c = '"' then parseCsvAux rest QState.inQ field fs rs
      else if c = ',' then parseCsvAux rest QState.outQ [] (fs ++ [field]) rs
      else if c = '\n' then parseCsvAux rest QState.outQ [] [] (rs ++ [fs ++ [field]])
      else parseCsvAux rest QState.outQ (field ++ [c]) fs rs

/-- Parse a whole CSV text into records of fields. -/
def parseCsv (s : Str) : List (List Str) := parseCsvAux s QState.outQ [] [] []

/-! ### Generic lemmas about first-wins key maps -/

theorem insertFirstBy_cases {α κ : Type} [DecidableEq κ] (key : α → κ)
    (acc : List α) (x : α) :
    (insertFirstBy key acc x = acc ∧ hasKey key acc (key x)) ∨
    (insertFirstBy key acc x = acc ++ [x] ∧ ¬ hasKey key acc (key x)) := by
  unfold insertFirstBy
  by_cases h : acc.any (fun y => decide (key y = key x)) = true
  · left
    refine ⟨by simp [h], ?_⟩
    rcases List.any_eq_true.mp h with ⟨y, hy, hk⟩
    exact ⟨y, hy, of_decide_eq_true hk⟩
  · right
    refine ⟨by simp [h], ?_⟩
    rintro ⟨y, hy, hk⟩
    exact h (List.any_eq_true.mpr ⟨y, hy, decide_eq_true hk⟩)

theorem mem_foldl_insertFirstBy {α κ : Type} [DecidableEq κ] (key : α → κ) (xs : List α) :
    ∀ acc t, t ∈ xs.foldl (insertFirstBy key) acc → t ∈ acc ∨ t ∈ xs := by
  induction xs with
  | nil => simp
  | cons x xs ih =>
    intro acc t h
    rcases ih _ t h with h1 | h1
    · rcases insertFirstBy_cases key acc x with ⟨he, _⟩ | ⟨he, _⟩ <;> rw [he] at h1
      · exact Or.inl h1
      · rcases List.mem_append.mp h1 with h2 | h2
        · exact Or.inl h2
        · simp at h2; subst h2; simp
    · simp [h1]

theorem hasKey_mono {α κ : Type} [DecidableEq κ] (key : α → κ) (xs : List α) :
    ∀ acc k, hasKey key acc k → hasKey key (xs.foldl (insertFirstBy key) acc) k := by
  induction xs with
  | nil => simp
  | cons x xs ih =>
    intro acc k h
    apply ih
    rcases insertFirstBy_cases key acc x with ⟨he, _⟩ | ⟨he, _⟩ <;> rw [he]
    · exact h
    · rcases h with ⟨t, ht, hk⟩
      exact ⟨t, by simp [ht], hk⟩

theorem hasKey_foldl_of_mem {α κ : Type} [DecidableEq κ] (key : α → κ) (xs : List α) :
    ∀ acc x, x ∈ xs → hasKey key (xs.foldl (insertFirstBy key) acc) (key x) := by
  induction xs with
  | nil => simp
  | cons y xs ih =>
    intro acc x hx
    rw [List.foldl_cons]
    rcases List.mem_cons.mp hx with rfl | hx
    · rcases insertFirstBy_cases key acc x with ⟨he, hk⟩ | ⟨he, _⟩ <;> rw [he]
      · exact hasKey_mono key xs acc _ hk
      · exact hasKey_mono key xs _ _ ⟨x, by simp, rfl⟩
    · exact ih _ x hx

theorem foldl_insertFirstBy_split {α κ : Type} [DecidableEq κ] (key : α → κ) (xs : List α) :
    ∀ acc, ∃ ys, xs.foldl (insertFirstBy key) acc = acc ++ ys ∧
      ∀ t ∈ ys, ¬ hasKey key acc (key t) ∧ t ∈ xs := by
  induction xs with
  | nil => exact fun acc => ⟨[], by simp⟩
  | cons x xs ih =>
    intro acc
    rcases insertFirstBy_cases key acc x with ⟨he, _⟩ | ⟨he, hk⟩
    · rcases ih (insertFirstBy key acc x) with ⟨ys, h1, h2⟩
      refine ⟨ys, by simpa [he] using h1, fun t ht => ?_⟩
      rcases h2 t ht with ⟨hn, hm⟩
      rw [he] at hn
      exact ⟨hn, by simp [hm]⟩
    · rcases ih (insertFirstBy key acc x) with ⟨ys, h1, h2⟩
      refine ⟨x :: ys, ?_, ?_⟩
      · rw [List.foldl_cons, h1, he]; simp
      · intro t ht
        rcases List.mem_cons.mp ht with rfl | ht
        · exact ⟨hk, by simp⟩
        · rcases h2 t ht with ⟨hn, hm⟩
          rw [he] at hn
          constructor
          · intro hcontra
            exact hn ⟨hcontra.choose, by simp [hcontra.choose_spec.1], hcontra.choose_spec.2⟩
          · simp [hm]

theorem keys_nodup_foldl {α κ : Type} [DecidableEq κ] (key : α → κ) (xs : List α) :
    ∀ acc, (acc.map key).Nodup → ((xs.foldl (insertFirstBy key) acc).map key).Nodup := by
  induction xs with
  | nil => exact fun acc h => h
  | cons x xs ih =>
    intro acc h
    apply ih
    rcases insertFirstBy_cases key acc x with ⟨he, _⟩ | ⟨he, hk⟩ <;> rw [he]
    · exact h
    · rw [List.map_append]
      simp only [List.map_cons, List.map_nil]
      rw [List.nodup_append]
      refine ⟨h, List.nodup_singleton _, ?_⟩
      intro a ha hb
      simp at hb
      subst hb
      rcases List.mem_map.mp ha with ⟨t, ht, hkt⟩
      exact hk ⟨t, ht, hkt⟩

theorem keyset_eq_iff (l1 l2 : List Str) :
    (l1.dedup.length = l2.dedup.length ∧ ∀ k ∈ l2.dedup, k ∈ l1.dedup) ↔
      l2.toFinset = l1.toFinset := by
  constructor
  · rintro ⟨hlen, hsub⟩
    have hs : l2.toFinset ⊆ l1.toFinset := by
      intro a ha
      rw [List.mem_toFinset] at *
      have := hsub a (List.mem_dedup.mpr (List.mem_toFinset.mp (by rwa [List.mem_toFinset])))
      exact List.mem_dedup.mp this
    apply Finset.eq_of_subset_of_card_le hs
    rw [List.card_toFinset, List.card_toFinset, hlen]
  · intro h
    constructor
    · have : l1.toFinset.card = l2.toFinset.card := by rw [h]
      rwa [List.card_toFinset, List.card_toFinset] at this
    · intro k hk
      rw [List.mem_dedup] at *
      have : k ∈ l2.toFinset := List.mem_toFinset.mpr hk
      rw [h] at this
      exact List.mem_toFinset.mp this

theorem scanChanged_eq_false_iff (currentL mergedL : List Str) :
    scanChanged currentL mergedL = false ↔
      (mergedL.map lowerStr).toFinset = (currentL.map lowerStr).toFinset := by
  rw [← keyset_eq_iff]
  have hdef : scanChanged currentL mergedL =
      if ((currentL.map lowerStr).dedup).length ≠ ((mergedL.map lowerStr).dedup).length
      then true
      else ((mergedL.map lowerStr).dedup).any
        (fun k => !(((currentL.map lowerStr).dedup).contains k)) := rfl
  rw [hdef]
  by_cases hlen : ((currentL.map lowerStr).dedup).length = ((mergedL.map lowerStr).dedup).length
  · rw [if_neg (not_not_intro hlen)]
    constructor
    · intro h
      refine ⟨hlen, fun k hk => ?_⟩
      have h2 := List.any_eq_false.mp h k hk
      simp only [Bool.not_eq_true, Bool.not_eq_false'] at h2
      exact List.elem_iff.mp h2
    · rintro ⟨_, hsub⟩
      apply List.any_eq_false.mpr
      intro k hk
      simp only [Bool.not_eq_true, Bool.not_eq_false']
      exact List.elem_iff.mpr (hsub k hk)
  · rw [if_pos hlen]
    constructor
    · intro h; cases h
    · rintro ⟨h1, _⟩; exact absurd h1 hlen

/-- C5: the merged worklist is deduplicated by lowercased key (at most one
display string per key), and any key present among the Store's unassigned
display strings is represented in the worklist by one of those Store strings,
never by a raw record string. -/
theorem merged_worklist_dedup_prefers_store (u m : List Str) :
    ((mergedList u m).map lowerStr).Nodup ∧
    ∀ k, hasKey lowerStr u k → ∀ t ∈ mergedList u m, lowerStr t = k → t ∈ u := by
  constructor
  · exact keys_nodup_foldl lowerStr (u ++ m) [] (by simp)
  · intro k hk t ht hkt
    unfold mergedList dedupByKey at ht
    rw [List.foldl_append] at ht
    rcases foldl_insertFirstBy_split lowerStr m (u.foldl (insertFirstBy lowerStr) []) with
      ⟨ys, hsplit, hys⟩
    rw [hsplit] at ht
    rcases List.mem_append.mp ht with h1 | h1
    · rcases mem_foldl_insertFirstBy lowerStr u [] t h1 with h2 | h2
      · simp at h2
      · exact h2
    · exfalso
      rcases hk with ⟨x, hx, hkx⟩
      have hk2 : hasKey lowerStr (u.foldl (insertFirstBy lowerStr) []) (lowerStr t) := by
        rw [hkt, ← hkx]
        exact hasKey_foldl_of_mem lowerStr u [] x hx
      exact (hys t h1).1 hk2

theorem merged_worklist_dedup_prefers_store_witness :
    "Fever".toList ∈ mergedList ["Fever".toList] ["fever".toList, "cough".toList] ∧
    "Fever".toList ∈ ["Fever".toList] := by
  refine ⟨by decide, ?_⟩
  exact (merged_worklist_dedup_prefers_store ["Fever".toList]
    ["fever".toList, "cough".toList]).2 (lowerStr "Fever".toList)
    ⟨"Fever".toList, by simp, rfl⟩ "Fever".toList (by decide) (by decide)

/-- C1: the polling consumer's change test is equivalent to set inequality of
the normalized-key sets (it is `false` exactly when the sets coincide), and
when the two key sets are identical `silentScan` leaves the worklist,
classifications, selections and page untouched. -/
theorem silent_scan_change_detection (st : WorkState) (ins : Nat) (u m : List Str) :
    (scanChanged (currentWorklist st) (newWorklist u m) = false ↔
      ((newWorklist u m).map lowerStr).toFinset =
        ((currentWorklist st).map lowerStr).toFinset) ∧
    (((newWorklist u m).map lowerStr).toFinset =
        ((currentWorklist st).map lowerStr).toFinset →
      silentScanStep st ins u m = st) := by
  refine ⟨scanChanged_eq_false_iff _ _, fun h => ?_⟩
  have hc : scanChanged (currentWorklist st) (newWorklist u m) = false :=
    (scanChanged_eq_false_iff _ _).mpr h
  unfold silentScanStep
  simp only [newWorklist] at hc
  simp [hc]

theorem silent_scan_change_detection_witness :
    silentScanStep ⟨some (0, ["ab".toList]), [], [], 3⟩ 5 ["AB ".toList] [] =
      ⟨some (0, ["ab".toList]), [], [], 3⟩ := by
  exact (silent_scan_change_detection ⟨some (0, ["ab".toList]), [], [], 3⟩ 5
    ["AB ".toList] []).2 (by decide)

theorem lookup_map_pair {β : Type} (f : Str → β) (l : List Str) (s : Str) :
    (l.map (fun t => (t, f t))).lookup s = if s ∈ l then some (f s) else none := by
  induction l with
  | nil => simp
  | cons t l ih =>
    simp only [List.map_cons, List.lookup]
    by_cases h : s = t
    · subst h
      simp
    · have hbeq : (s == t) = false := beq_eq_false_iff_ne.mpr h
      rw [hbeq]
      simp only []
      rw [ih]
      simp [List.mem_cons, h]

/-- C8: when a background scan detects a change and replaces the worklist,
selections are preserved for every symptom present in both the old and the new
worklist, symptoms absent from the new worklist are dropped, and newly
appearing symptoms start with the empty selection. -/
theorem silent_scan_preserves_selections (st : WorkState) (ins : Nat) (u m : List Str)
    (h : scanChanged (currentWorklist st) (newWorklist u m) = true) :
    (silentScanStep st ins u m).result = some (ins, newWorklist u m) ∧
    (∀ s v, s ∈ newWorklist u m → st.selections.lookup s = some v →
      (silentScanStep st ins u m).selections.lookup s = some v) ∧
    (∀ s, s ∈ newWorklist u m → st.selections.lookup s = none →
      (silentScanStep st ins u m).selections.lookup s = some none) ∧
    (∀ s, s ∉ newWorklist u m → (silentScanStep st ins u m).selections.lookup s = none) := by
  have hstep : silentScanStep st ins u m =
      { result := some (ins, newWorklist u m)
        missingTypes := (newWorklist u m).map (fun s =>
          (s, classifyType ((cleanList u).map lowerStr) ((cleanList m).map lowerStr) (lowerStr s)))
        selections := (newWorklist u m).map (fun s => (s, (st.selections.lookup s).getD none))
        page := 1 } := by
    unfold silentScanStep
    simp only [newWorklist] at h
    simp [h, newWorklist]
  rw [hstep]
  refine ⟨rfl, ?_, ?_, ?_⟩
  · intro s v hs hv
    rw [lookup_map_pair, if_pos hs, hv]
    rfl
  · intro s hs hv
    rw [lookup_map_pair, if_pos hs, hv]
    rfl
  · intro s hs
    rw [lookup_map_pair, if_neg hs]

theorem silent_scan_preserves_selections_witness :
    (silentScanStep ⟨none, [], [(['a'], some 3), (['c'], some 9)], 7⟩ 0 [['a'], ['b']] []).selections.lookup ['a'] =
      some (some 3) := by
  exact (silent_scan_preserves_selections ⟨none, [], [(['a'], some 3), (['c'], some 9)], 7⟩
    0 [['a'], ['b']] [] (by decide)).2.1 ['a'] (some 3) (by decide) (by decide)

/-- C2 counterexample: the claim that an overwrite commit request carries an
explicit `confirmed` signal fails — the body serialized by `handleCommit` for
an overwrite commit has no `confirmed` field. -/
theorem overwrite_commit_body_lacks_confirmed :
    (handleCommitBody ['t'] Mode.overwrite).confirmed = none := rfl

/-- C2 (amended): the commit request carries only the token and the mode —
`confirmed` is never serialized — and the explicit overwrite confirmation is
enforced client-side instead: with the confirmation checkbox unchecked the
`Start import` button is disabled in overwrite mode. -/
theorem overwrite_commit_confirmation_client_side :
    (∀ t importMode, handleCommitBody t importMode =
      { token := t, mode := importMode, confirmed := none }) ∧
    (∀ canImport loading,
      startImportDisabled canImport loading Mode.overwrite false = true) := by
  refine ⟨fun t importMode => rfl, fun canImport loading => ?_⟩
  cases canImport <;> cases loading <;> rfl

/-- C3: with `can_import` false the commit is rejected before any request is
issued — `startImport` returns leaving the step unchanged and posting nothing —
and both the preview `Next` button and the `Start import` button are disabled. -/
theorem commit_blocked_when_cannot_import :
    (∀ step token importMode, startImportModel false step token importMode = (step, [])) ∧
    previewNextDisabled false = true ∧
    (∀ loading importMode c, startImportDisabled false loading importMode c = true) := by
  refine ⟨fun step token importMode => rfl, rfl, fun loading importMode c => rfl⟩

/-- C4: a file whose byte size exceeds `MAX_UPLOAD_MB * 1024 * 1024` is
rejected by `handleUpload` with the file-too-large error before any preview
request is sent. -/
theorem oversize_upload_rejected_before_preview (fileSize maxUploadMB : Nat)
    (h : fileSize > maxUploadMB * 1024 * 1024) :
    handleUploadGate fileSize maxUploadMB = UploadOutcome.tooLargeError := by
  unfold handleUploadGate
  rw [if_pos h]

theorem oversize_upload_rejected_before_preview_witness :
    104857601 > 100 * 1024 * 1024 ∧
    handleUploadGate 104857601 100 = UploadOutcome.tooLargeError :=
  ⟨by norm_num, oversize_upload_rejected_before_preview 104857601 100 (by norm_num)⟩

theorem comma_not_mem_splitComma (s : Str) : ∀ t ∈ splitComma s, ',' ∉ t := by
  induction s with
  | nil => intro t ht; simp [splitComma] at ht; simp [ht]
  | cons c rest ih =>
    intro t ht
    unfold splitComma at ht
    by_cases hc : c = ','
    · rw [if_pos hc] at ht
      rcases List.mem_cons.mp ht with rfl | ht
      · simp
      · exact ih t ht
    · rw [if_neg hc] at ht
      cases hsp : splitComma rest with
      | nil =>
        rw [hsp] at ht
        simp at ht
        subst ht
        intro hmem
        simp at hmem
        exact hc hmem.symm
      | cons f fs =>
        rw [hsp] at ht
        rcases List.mem_cons.mp ht with rfl | ht
        · intro hmem
          rcases List.mem_cons.mp hmem with h1 | h1
          · exact hc h1.symm
          · exact ih f (by rw [hsp]; simp) h1
        · exact ih t (by rw [hsp]; simp [ht])

theorem mem_of_mem_trimStr (c : Char) (s : Str) (h : c ∈ trimStr s) : c ∈ s := by
  unfold trimStr at h
  rw [List.mem_reverse] at h
  have h1 := (List.dropWhile_sublist _).subset h
  rw [List.mem_reverse] at h1
  exact (List.dropWhile_sublist _).subset h1

theorem mem_trimStr_of_not_space (c : Char) (s : Str)
    (hc : isJsSpace c = false) (h : c ∈ s) : c ∈ trimStr s := by
  have key : ∀ l : Str, c ∈ l → c ∈ l.dropWhile isJsSpace := by
    intro l hl
    induction l with
    | nil => simp at hl
    | cons a l ih =>
      rw [List.dropWhile_cons]
      by_cases ha : isJsSpace a = true
      · rcases List.mem_cons.mp hl with rfl | hl
        · rw [hc] at ha; cases ha
        · rw [if_pos ha]; exact ih hl
      · rw [if_neg ha]; exact hl
  unfold trimStr
  rw [List.mem_reverse]
  apply key
  rw [List.mem_reverse]
  exact key s h

theorem head_dropWhile_false (p : Char → Bool) (l : Str) :
    ∀ c, (l.dropWhile p).head? = some c → p c = false := by
  induction l with
  | nil => simp
  | cons a l ih =>
    intro c hc
    rw [List.dropWhile_cons] at hc
    by_cases ha : p a = true
    · rw [if_pos ha] at hc; exact ih c hc
    · rw [if_neg ha] at hc
      simp at hc
      subst hc
      exact Bool.not_eq_true _ |>.mp ha

theorem dropWhile_eq_self_of_head (p : Char → Bool) (l : Str)
    (h : ∀ c, l.head? = some c → p c = false) : l.dropWhile p = l := by
  cases l with
  | nil => rfl
  | cons a l =>
    rw [List.dropWhile_cons, if_neg]
    simp [h a rfl]

theorem trimStr_idem (s : Str) : trimStr (trimStr s) = trimStr s := by
  have h2 : (trimStr s).reverse.dropWhile isJsSpace = (trimStr s).reverse := by
    unfold trimStr
    rw [List.reverse_reverse]
    exact List.dropWhile_idempotent _ _
  have h1 : (trimStr s).dropWhile isJsSpace = trimStr s := by
    apply dropWhile_eq_self_of_head
    intro c hc
    unfold trimStr at hc
    set u := s.dropWhile isJsSpace with hu
    set v := u.reverse.dropWhile isJsSpace with hv
    have hdecomp : u.reverse = u.reverse.takeWhile isJsSpace ++ v := by
      rw [hv]
      exact (List.takeWhile_append_dropWhile _ _).symm
    have huu : u = v.reverse ++ (u.reverse.takeWhile isJsSpace).reverse := by
      conv_lhs => rw [← List.reverse_reverse u, hdecomp]
      rw [List.reverse_append]
    have hhead : u.head? = some c := by
      rw [huu]
      cases hvr : v.reverse with
      | nil => rw [hvr] at hc; cases hc
      | cons x xs =>
        rw [hvr] at hc
        simp at hc
        rcases hc with ⟨rfl, rfl⟩
        simp
    exact head_dropWhile_false isJsSpace s c (by rw [← hu]; exact hhead)
  calc trimStr (trimStr s)
      = (((trimStr s).dropWhile isJsSpace).reverse.dropWhile isJsSpace).reverse := rfl
    _ = ((trimStr s).reverse.dropWhile isJsSpace).reverse := by rw [h1]
    _ = (trimStr s).reverse.reverse := by rw [h2]
    _ = trimStr s := List.reverse_reverse _

/-- C6: every risk-factor token produced by `formatMRiskFactors` contains no
plain comma (the split is on the ASCII comma only), is trimmed and nonempty;
any value containing the full-width comma is flagged with the formatting-error
message; and a full-width comma is never itself a split point. -/
theorem mrisk_split_ascii_comma_only :
    (∀ val t, t ∈ formatMRiskFactors val → ',' ∉ t ∧ trimStr t = t ∧ t ≠ []) ∧
    (∀ val, fullComma ∈ val → mRiskCellError val = some chineseCommaMsg) ∧
    formatMRiskFactors "a，b".toList = ["a，b".toList] := by
  refine ⟨?_, ?_, by decide⟩
  · intro val t ht
    unfold formatMRiskFactors at ht
    by_cases hempty : (val.isEmpty || (trimStr val).isEmpty) = true
    · rw [if_pos hempty] at ht; cases ht
    · rw [if_neg hempty] at ht
      rcases List.mem_filter.mp ht with ⟨hmem, hne⟩
      rcases List.mem_map.mp hmem with ⟨u, hu, rfl⟩
      refine ⟨?_, trimStr_idem u, by simpa using hne⟩
      intro hcomma
      exact comma_not_mem_splitComma val u hu (mem_of_mem_trimStr _ _ hcomma)
  · intro val hmem
    have hmem2 : fullComma ∈ trimStr val := mem_trimStr_of_not_space _ _ (by decide) hmem
    have hne : (trimStr val).isEmpty = false := by
      cases htv : trimStr val with
      | nil => rw [htv] at hmem2; cases hmem2
      | cons a l => rfl
    unfold mRiskCellError
    rw [if_neg (by simp [hne]), if_pos (by exact List.elem_iff.mpr hmem2)]

theorem mrisk_split_ascii_comma_only_witness :
    (',' ∉ ['x'] ∧ trimStr ['x'] = ['x'] ∧ ['x'] ≠ []) ∧
    mRiskCellError " a，b ".toList = some chineseCommaMsg := by
  refine ⟨mrisk_split_ascii_comma_only.1 "x, y".toList ['x'] (by decide), ?_⟩
  exact mrisk_split_ascii_comma_only.2.1 " a，b ".toList (by decide)

/-! ### Character-level facts about the ASCII lowercase map -/

theorem char_le_iff_toNat (c d : Char) : c ≤ d ↔ c.toNat ≤ d.toNat := by
  rw [Char.le_def]; exact Iff.rfl

theorem char_toNat_inj (c d : Char) (h : c.toNat = d.toNat) : c = d := by
  apply Char.eq_of_val_eq
  exact @UInt32.toNat.inj c.val d.val h

theorem lowerChar_toNat (c : Char) :
    (lowerChar c).toNat = if 'A' ≤ c ∧ c ≤ 'Z' then c.toNat + 32 else c.toNat := by
  unfold lowerChar
  by_cases h : 'A' ≤ c ∧ c ≤ 'Z'
  · rw [if_pos h, if_pos h]
    have hZ : c.toNat ≤ 90 := (char_le_iff_toNat c 'Z').mp h.2
    have hvalid : (c.toNat + 32).isValidChar := Or.inl (by omega)
    simp only [Char.ofNat, hvalid, dif_pos]
    simp [Char.ofNatAux, Char.toNat, UInt32.toNat]
  · rw [if_neg h, if_neg h]

theorem lowerChar_fiber (c x : Char) (h : lowerChar c = x) :
    c = x ∨ (65 ≤ c.toNat ∧ c.toNat ≤ 90 ∧ c.toNat + 32 = x.toNat) := by
  have ht := congrArg Char.toNat h
  rw [lowerChar_toNat] at ht
  by_cases hc : 'A' ≤ c ∧ c ≤ 'Z'
  · rw [if_pos hc] at ht
    right
    exact ⟨(char_le_iff_toNat 'A' c).mp hc.1, (char_le_iff_toNat c 'Z').mp hc.2, ht⟩
  · rw [if_neg hc] at ht
    exact Or.inl (char_toNat_inj c x ht)

theorem lowerChar_eq_underscore (c : Char) (h : lowerChar c = '_') : c = '_' := by
  rcases lowerChar_fiber c '_' h with h1 | ⟨h1, h2, h3⟩
  · exact h1
  · exact absurd h3 (by have : ('_').toNat = 95 := rfl; omega)

theorem lowerChar_eq_r (c : Char) (h : lowerChar c = 'r') : c = 'r' ∨ c = 'R' := by
  rcases lowerChar_fiber c 'r' h with h1 | ⟨h1, h2, h3⟩
  · exact Or.inl h1
  · right
    apply char_toNat_inj
    have : ('r').toNat = 114 := rfl
    have hR : ('R').toNat = 82 := rfl
    omega

theorem lowerChar_eq_f (c : Char) (h : lowerChar c = 'f') : c = 'f' ∨ c = 'F' := by
  rcases lowerChar_fiber c 'f' h with h1 | ⟨h1, h2, h3⟩
  · exact Or.inl h1
  · right
    apply char_toNat_inj
    have : ('f').toNat = 102 := rfl
    have hF : ('F').toNat = 70 := rfl
    omega

theorem lowerChar_underscoreToSpace_comm (c : Char) :
    lowerChar (underscoreToSpace c) = underscoreToSpace (lowerChar c) := by
  by_cases h : c = '_'
  · subst h; decide
  · rw [underscoreToSpace, if_neg h, underscoreToSpace,
      if_neg (fun hc => h (lowerChar_eq_underscore c hc))]

theorem normalize_lower_ui (n : Str)
    (h : lowerStr n = "urinary incontinence".toList) :
    normalize n = "urinary incontinence".toList := by
  show normCore (lowerStr n) = _
  rw [h]
  decide

theorem rfNormalize_lower_rfui (id : Str)
    (h : lowerStr id = "rf_urinary_incontinence".toList) :
    rfNormalize id = "urinary incontinence".toList := by
  cases id with
  | nil => exact absurd (congrArg List.length h) (by simp [lowerStr])
  | cons a rest1 =>
  cases rest1 with
  | nil => exact absurd (congrArg List.length h) (by simp [lowerStr])
  | cons b rest2 =>
  cases rest2 with
  | nil => exact absurd (congrArg List.length h) (by simp [lowerStr])
  | cons c rest =>
  simp only [lowerStr, List.map_cons] at h
  have hstr : "rf_urinary_incontinence".toList =
      'r' :: 'f' :: '_' :: "urinary_incontinence".toList := rfl
  rw [hstr, List.cons.injEq, List.cons.injEq, List.cons.injEq] at h
  rcases h with ⟨ha, hb, hc, hrest⟩
  have hstrip : stripRf (a :: b :: c :: rest) = rest := by
    have hdef : stripRf (a :: b :: c :: rest) =
        if (a = 'r' ∨ a = 'R') ∧ (b = 'f' ∨ b = 'F') ∧ c = '_' then rest
        else a :: b :: c :: rest := rfl
    rw [hdef,
      if_pos ⟨lowerChar_eq_r a ha, lowerChar_eq_f b hb, lowerChar_eq_underscore c hc⟩]
  have hcomp : ∀ l : Str,
      l.map (lowerChar ∘ underscoreToSpace) = l.map (underscoreToSpace ∘ lowerChar) := by
    intro l
    induction l with
    | nil => rfl
    | cons x xs ih => simp [Function.comp, lowerChar_underscoreToSpace_comm, ih]
  unfold rfNormalize
  rw [hstrip]
  show normCore ((rest.map underscoreToSpace).map lowerChar) = _
  rw [List.map_map, hcomp, ← List.map_map]
  have hrest2 : rest.map lowerChar = "urinary_incontinence".toList := hrest
  rw [hrest2]
  decide

theorem lookup_mem_of_key_mem {β : Type} (l : List (Str × β)) (k : Str) :
    (∃ p ∈ l, p.1 = k) → ∃ v, l.lookup k = some v ∧ (k, v) ∈ l := by
  induction l with
  | nil => rintro ⟨p, hp, _⟩; cases hp
  | cons q l ih =>
    rintro ⟨p, hp, hk⟩
    obtain ⟨qk, qv⟩ := q
    by_cases he : k = qk
    · subst he
      refine ⟨qv, ?_, by simp⟩
      show List.lookup k ((k, qv) :: l) = some qv
      rw [List.lookup, beq_self_eq_true]
    · have hbeq : (k == qk) = false := beq_eq_false_iff_ne.mpr he
      have hpl : p ∈ l := by
        rcases List.mem_cons.mp hp with rfl | hmem
        · exact absurd hk (fun hh => he hh.symm)
        · exact hmem
      rcases ih ⟨p, hpl, hk⟩ with ⟨v, hv, hmem⟩
      refine ⟨v, ?_, by simp [hmem]⟩
      show List.lookup k ((qk, qv) :: l) = some v
      rw [List.lookup, hbeq]
      exact hv

/-- C7: `RF_Urinary_Incontinence` normalizes to `urinary incontinence`; any
casing of the identifier (same lowercase form) normalizes the same way; any
casing of a symptom named `Urinary Incontinence` normalizes identically under
the same `normalize`; and such a symptom is matched by `rfMatchMap` for such
an identifier, regardless of the stored casing of either side. -/
theorem rf_prefix_normalization_matches_symptom :
    rfNormalize "RF_Urinary_Incontinence".toList = "urinary incontinence".toList ∧
    (∀ id, lowerStr id = "rf_urinary_incontinence".toList →
      rfNormalize id = "urinary incontinence".toList) ∧
    (∀ n, lowerStr n = "urinary incontinence".toList →
      normalize n = "urinary incontinence".toList) ∧
    (∀ items it0 id, it0 ∈ items →
      lowerStr it0.symptom = "urinary incontinence".toList →
      lowerStr id = "rf_urinary_incontinence".toList →
      ∃ it, rfMatchLookup items id = some it ∧ it ∈ items ∧
        normalize it.symptom = "urinary incontinence".toList) := by
  refine ⟨by decide, rfNormalize_lower_rfui, normalize_lower_ui, ?_⟩
  intro items it0 id h0 hsym hid
  have hnorm : normalize it0.symptom = "urinary incontinence".toList :=
    normalize_lower_ui _ hsym
  have hpair : (("urinary incontinence".toList : Str), it0) ∈
      (items.map (fun it => (normalize it.symptom, it))).filter (fun p => !p.1.isEmpty) := by
    apply List.mem_filter.mpr
    refine ⟨List.mem_map.mpr ⟨it0, h0, by rw [hnorm]⟩, by simp⟩
  have hhk : hasKey Prod.fst (buildByNorm items) "urinary incontinence".toList := by
    unfold buildByNorm dedupByKey
    exact hasKey_foldl_of_mem Prod.fst _ [] _ hpair
  rcases lookup_mem_of_key_mem (buildByNorm items) _ hhk with ⟨v, hlook, hmemv⟩
  have hsrc : (("urinary incontinence".toList : Str), v) ∈
      (items.map (fun it => (normalize it.symptom, it))).filter (fun p => !p.1.isEmpty) := by
    unfold buildByNorm dedupByKey at hmemv
    rcases mem_foldl_insertFirstBy Prod.fst _ [] _ hmemv with h1 | h1
    · cases h1
    · exact h1
  rcases List.mem_map.mp (List.mem_filter.mp hsrc).1 with ⟨it1, hit1, heq⟩
  have hveq : v = it1 := (congrArg Prod.snd heq).symm
  have hvnorm : normalize v.symptom = "urinary incontinence".toList := by
    rw [hveq]
    exact congrArg Prod.fst heq
  refine ⟨v, ?_, by rw [hveq]; exact hit1, hvnorm⟩
  unfold rfMatchLookup
  rw [rfNormalize_lower_rfui id hid]
  exact hlook

theorem rf_prefix_normalization_matches_symptom_witness :
    ∃ it, rfMatchLookup [⟨"URINARY INCONTINENCE".toList, some 2⟩]
        "rf_URINARY_incontinence".toList = some it ∧
      it ∈ [(⟨"URINARY INCONTINENCE".toList, some 2⟩ : SymptomItem)] ∧
      normalize it.symptom = "urinary incontinence".toList := by
  exact rf_prefix_normalization_matches_symptom.2.2.2
    [⟨"URINARY INCONTINENCE".toList, some 2⟩] ⟨"URINARY INCONTINENCE".toList, some 2⟩
    "rf_URINARY_incontinence".toList (by decide) (by decide) (by decide)

theorem keys_setCell (r : List (Str × Str)) (k v : Str) :
    (setCell r k v).map Prod.fst = r.map Prod.fst := by
  unfold setCell
  rw [List.map_map]
  apply List.map_congr_left
  intro p _
  by_cases h : p.1 = k
  · simp [h]
  · simp [h]

theorem lookup_setCell_self (r : List (Str × Str)) (k v : Str)
    (h : k ∈ r.map Prod.fst) : (setCell r k v).lookup k = some v := by
  induction r with
  | nil => simp at h
  | cons q r ih =>
    obtain ⟨qk, qv⟩ := q
    by_cases he : qk = k
    · subst he
      show List.lookup qk (setCell ((qk, qv) :: r) qk v) = some v
      unfold setCell
      simp only [List.map_cons, if_pos rfl]
      show List.lookup qk ((qk, v) :: _) = some v
      rw [List.lookup, beq_self_eq_true]
    · have hk : k ∈ r.map Prod.fst := by
        rcases List.mem_cons.mp h with h1 | h1
        · exact absurd h1.symm he
        · exact h1
      show List.lookup k (setCell ((qk, qv) :: r) k v) = some v
      unfold setCell
      simp only [List.map_cons, if_neg he]
      show List.lookup k ((qk, qv) :: setCell r k v) = some v
      rw [List.lookup, beq_eq_false_iff_ne.mpr (fun hc => he hc.symm)]
      exact ih hk

theorem parseYmd_ne_nil (v : Str) (t : Ymd) (h : parseYmd v = some t) :
    v.isEmpty = false := by
  cases v with
  | nil => cases h
  | cons a l => rfl

/-- C10 counterexample: setting `Start date` to the parseable date
`2024-02-27` does not always set `End date` to that date plus six days — in
an environment west of UTC (here UTC−5, offset −300 minutes) the code yields
`2024-03-03`, five days later, because `Date.parse` reads the date-only
string as midnight UTC while `getDate`/`setDate`/`formatDate` use local
components. -/
theorem end_date_plus_six_fails_west_of_utc :
    parseYmd "2024-02-27".toList = some { year := 2024, month := 2, day := 27 } ∧
    (updateManualCellRow (-300)
        [(startDateCol, []), (endDateCol, []), ("Age".toList, ['7'])]
        startDateCol "2024-02-27".toList).lookup endDateCol =
      some "2024-03-03".toList ∧
    (updateManualCellRow (-300)
        [(startDateCol, []), (endDateCol, []), ("Age".toList, ['7'])]
        startDateCol "2024-02-27".toList).lookup endDateCol ≠
      some (formatYmd (addDaysYmd { year := 2024, month := 2, day := 27 } 6)) := by
  decide

/-- C10 (amended): `End date` is derived, never directly editable — its editor
is the only disabled one; setting `Start date` to a parseable date sets
`End date` to the local civil date of the parsed instant plus six days,
formatted `YYYY-MM-DD`: the date itself plus six days when the environment's
UTC offset is non-negative, but the previous day plus six (the date plus
five) when the clock is behind UTC, because `Date.parse` reads the date-only
string as midnight UTC while the day arithmetic and formatting use local
components; clearing the field or supplying an unparseable value sets
`End date` to the empty string. -/
theorem end_date_derived_from_start (off : Int) (r : List (Str × Str)) (v : Str)
    (hmem : endDateCol ∈ r.map Prod.fst) :
    (∀ t, parseYmd v = some t → 0 ≤ off →
      (updateManualCellRow off r startDateCol v).lookup endDateCol =
        some (formatYmd (addDaysYmd t 6))) ∧
    (∀ t, parseYmd v = some t → off < 0 →
      (updateManualCellRow off r startDateCol v).lookup endDateCol =
        some (formatYmd (addDaysYmd (prevDay t) 6))) ∧
    ((v = [] ∨ parseYmd v = none) →
      (updateManualCellRow off r startDateCol v).lookup endDateCol = some []) ∧
    manualCellDisabled endDateCol = true := by
  have hupd : updateManualCellRow off r startDateCol v =
      setCell (setCell r startDateCol v) endDateCol
        (if v.isEmpty then [] else addDaysStr off v 6) := by
    unfold updateManualCellRow
    rw [if_pos rfl]
  have hmem2 : endDateCol ∈ (setCell r startDateCol v).map Prod.fst := by
    rw [keys_setCell]; exact hmem
  refine ⟨?_, ?_, ?_, rfl⟩
  · intro t ht hoff
    rw [hupd, lookup_setCell_self _ _ _ hmem2]
    have hoff2 : ¬ (off < 0) := not_lt.mpr hoff
    simp [parseYmd_ne_nil v t ht, addDaysStr, ht, localCivilDate, hoff2]
  · intro t ht hoff
    rw [hupd, lookup_setCell_self _ _ _ hmem2]
    simp [parseYmd_ne_nil v t ht, addDaysStr, ht, localCivilDate, hoff]
  · intro hcase
    rw [hupd, lookup_setCell_self _ _ _ hmem2]
    rcases hcase with rfl | hnone
    · rfl
    · cases hv : (v.isEmpty)
      · simp [hv, addDaysStr, hnone]
      · simp [hv]

theorem end_date_derived_from_start_witness :
    (updateManualCellRow 0
        [(startDateCol, []), (endDateCol, []), ("Age".toList, ['7'])]
        startDateCol "2024-02-27".toList).lookup endDateCol =
      some "2024-03-04".toList ∧
    (updateManualCellRow (-300)
        [(startDateCol, []), (endDateCol, []), ("Age".toList, ['7'])]
        startDateCol "2024-02-27".toList).lookup endDateCol =
      some "2024-03-03".toList := by
  constructor
  · have h := (end_date_derived_from_start 0
      [(startDateCol, []), (endDateCol, []), ("Age".toList, ['7'])]
      "2024-02-27".toList (by decide)).1
      { year := 2024, month := 2, day := 27 } (by decide) (by decide)
    rw [h]
    decide
  · have h := (end_date_derived_from_start (-300)
      [(startDateCol, []), (endDateCol, []), ("Age".toList, ['7'])]
      "2024-02-27".toList (by decide)).2.1
      { year := 2024, month := 2, day := 27 } (by decide) (by decide)
    rw [h]
    decide

/-! ### Stepping lemmas for the CSV reader -/

theorem csv_step_inq_other (c : Char) (rest field : Str) (fs : List Str)
    (rs : List (List Str)) (hc : c ≠ '"') :
    parseCsvAux (c :: rest) QState.inQ field fs rs =
      parseCsvAux rest QState.inQ (field ++ [c]) fs rs := by
  simp only [parseCsvAux]
  rw [if_neg hc]

theorem csv_step_outq_plain (c : Char) (rest field : Str) (fs : List Str)
    (rs : List (List Str)) (h1 : c ≠ '"') (h2 : c ≠ ',') (h3 : c ≠ '\n') :
    parseCsvAux (c :: rest) QState.outQ field fs rs =
      parseCsvAux rest QState.outQ (field ++ [c]) fs rs := by
  simp only [parseCsvAux]
  rw [if_neg h1, if_neg h2, if_neg h3]

theorem mem_doubleQuotes (c : Char) (s : Str) (h : c ∈ s) : c ∈ doubleQuotes s := by
  unfold doubleQuotes
  apply List.mem_flatMap.mpr
  refine ⟨c, h, ?_⟩
  by_cases hc : c = '"' <;> simp [hc]

theorem doubleQuotes_eq_self (s : Str) (h : '"' ∉ s) : doubleQuotes s = s := by
  induction s with
  | nil => rfl
  | cons c s ih =>
    unfold doubleQuotes at *
    simp only [List.flatMap_cons]
    have hcq : ¬ c = '"' := by
      intro hc
      subst hc
      exact h (List.mem_cons_self _ _)
    rw [if_neg hcq, ih (fun hm => h (List.mem_cons_of_mem c hm))]
    rfl

theorem not_special_of_hasSpecial_false (s : Str) (h : hasSpecial s = false) :
    ∀ c ∈ s, c ≠ '"' ∧ c ≠ ',' ∧ c ≠ '\n' := by
  intro c hc
  have hh := List.any_eq_false.mp h c hc
  simp only [Bool.or_eq_true, decide_eq_true_eq, not_or] at hh
  exact ⟨hh.1.1, hh.1.2, hh.2⟩

/-- Consuming a run of plain characters outside quotes appends them to the
current field. -/
theorem parse_plain_run (v : Str) (hv : ∀ c ∈ v, c ≠ '"' ∧ c ≠ ',' ∧ c ≠ '\n') :
    ∀ rest field fs rs, parseCsvAux (v ++ rest) QState.outQ field fs rs =
      parseCsvAux rest QState.outQ (field ++ v) fs rs := by
  induction v with
  | nil => intro rest field fs rs; simp
  | cons c v ih =>
    intro rest field fs rs
    rcases hv c (by simp) with ⟨h1, h2, h3⟩
    rw [List.cons_append, csv_step_outq_plain c _ _ _ _ h1 h2 h3,
      ih (fun d hd => hv d (by simp [hd])) rest (field ++ [c]) fs rs]
    have hfield : (field ++ [c]) ++ v = field ++ c :: v := by simp
    rw [hfield]

/-- Consuming the quote-doubled content of a quoted field followed by the
closing quote appends the original content and leaves the reader in the
just-closed state. -/
theorem parse_quoted_run (v : Str) :
    ∀ rest field fs rs, parseCsvAux (doubleQuotes v ++ '"' :: rest) QState.inQ field fs rs =
      parseCsvAux rest QState.seenQ (field ++ v) fs rs := by
  induction v with
  | nil => intro rest field fs rs; simp [doubleQuotes]; rfl
  | cons c v ih =>
    intro rest field fs rs
    by_cases hc : c = '"'
    · subst hc
      have hdq : doubleQuotes ('"' :: v) = '"' :: '"' :: doubleQuotes v := by
        unfold doubleQuotes; simp
      rw [hdq, List.cons_append, List.cons_append]
      show parseCsvAux ('"' :: doubleQuotes v ++ '"' :: rest) QState.seenQ field fs rs = _
      show parseCsvAux (doubleQuotes v ++ '"' :: rest) QState.inQ (field ++ ['"']) fs rs = _
      rw [ih rest (field ++ ['"']) fs rs]
      have hfield : (field ++ ['"']) ++ v = field ++ '"' :: v := by simp
      rw [hfield]
    · have hdq : doubleQuotes (c :: v) = c :: doubleQuotes v := by
        unfold doubleQuotes
        simp only [List.flatMap_cons]
        rw [if_neg hc]
        rfl
      rw [hdq, List.cons_append, csv_step_inq_other c _ _ _ _ hc,
        ih rest (field ++ [c]) fs rs]
      have hfield : (field ++ [c]) ++ v = field ++ c :: v := by simp
      rw [hfield]

/-- A serialized cell at the end of the text parses back to its committed
value, finishing the record. -/
theorem parse_cell_end (col v : Str) (fs : List Str) (rs : List (List Str)) :
    parseCsvAux (escapeCell col v) QState.outQ [] fs rs =
      rs ++ [fs ++ [transCell col v]] := by
  unfold escapeCell
  by_cases hq : hasSpecial (doubleQuotes (transCell col v)) = true
  · rw [if_pos hq]
    show parseCsvAux ('"' :: (doubleQuotes (transCell col v) ++ ['"']))
      QState.outQ [] fs rs = _
    show parseCsvAux (doubleQuotes (transCell col v) ++ ['"'])
      QState.inQ [] fs rs = _
    have hshape : doubleQuotes (transCell col v) ++ ['"'] =
        doubleQuotes (transCell col v) ++ '"' :: [] := rfl
    rw [hshape, parse_quoted_run (transCell col v) [] [] fs rs]
    rfl
  · rw [if_neg hq]
    have hq2 : hasSpecial (doubleQuotes (transCell col v)) = false :=
      Bool.not_eq_true _ |>.mp hq
    have hspec := not_special_of_hasSpecial_false _ hq2
    have hnq : '"' ∉ transCell col v := fun hm =>
      (hspec '"' (mem_doubleQuotes _ _ hm)).1 rfl
    rw [doubleQuotes_eq_self _ hnq]
    rw [doubleQuotes_eq_self _ hnq] at hspec
    have htext : transCell col v = transCell col v ++ [] := (List.append_nil _).symm
    rw [htext, parse_plain_run (transCell col v) hspec [] [] fs rs]
    simp [parseCsvAux]

/-- A serialized cell followed by a comma parses back to its committed value
and the reader continues with the next field of the same record. -/
theorem parse_cell_comma (col v : Str) (r : Str) (fs : List Str) (rs : List (List Str)) :
    parseCsvAux (escapeCell col v ++ ',' :: r) QState.outQ [] fs rs =
      parseCsvAux r QState.outQ [] (fs ++ [transCell col v]) rs := by
  unfold escapeCell
  by_cases hq : hasSpecial (doubleQuotes (transCell col v)) = true
  · rw [if_pos hq]
    show parseCsvAux ('"' :: ((doubleQuotes (transCell col v) ++ ['"']) ++ ',' :: r))
      QState.outQ [] fs rs = _
    show parseCsvAux ((doubleQuotes (transCell col v) ++ ['"']) ++ ',' :: r)
      QState.inQ [] fs rs = _
    have hshape : (doubleQuotes (transCell col v) ++ ['"']) ++ ',' :: r =
        doubleQuotes (transCell col v) ++ '"' :: ',' :: r := by simp
    rw [hshape, parse_quoted_run (transCell col v) (',' :: r) [] fs rs]
    rfl
  · rw [if_neg hq]
    have hq2 : hasSpecial (doubleQuotes (transCell col v)) = false :=
      Bool.not_eq_true _ |>.mp hq
    have hspec := not_special_of_hasSpecial_false _ hq2
    have hnq : '"' ∉ transCell col v := fun hm =>
      (hspec '"' (mem_doubleQuotes _ _ hm)).1 rfl
    rw [doubleQuotes_eq_self _ hnq]
    rw [doubleQuotes_eq_self _ hnq] at hspec
    rw [parse_plain_run (transCell col v) hspec (',' :: r) [] fs rs]
    rfl

/-- A serialized cell followed by a newline parses back to its committed value,
finishing the record and starting a new one. -/
theorem parse_cell_nl (col v : Str) (r : Str) (fs : List Str) (rs : List (List Str)) :
    parseCsvAux (escapeCell col v ++ '\n' :: r) QState.outQ [] fs rs =
      parseCsvAux r QState.outQ [] [] (rs ++ [fs ++ [transCell col v]]) := by
  unfold escapeCell
  by_cases hq : hasSpecial (doubleQuotes (transCell col v)) = true
  · rw [if_pos hq]
    show parseCsvAux ('"' :: ((doubleQuotes (transCell col v) ++ ['"']) ++ '\n' :: r))
      QState.outQ [] fs rs = _
    show parseCsvAux ((doubleQuotes (transCell col v) ++ ['"']) ++ '\n' :: r)
      QState.inQ [] fs rs = _
    have hshape : (doubleQuotes (transCell col v) ++ ['"']) ++ '\n' :: r =
        doubleQuotes (transCell col v) ++ '"' :: '\n' :: r := by simp
    rw [hshape, parse_quoted_run (transCell col v) ('\n' :: r) [] fs rs]
    rfl
  · rw [if_neg hq]
    have hq2 : hasSpecial (doubleQuotes (transCell col v)) = false :=
      Bool.not_eq_true _ |>.mp hq
    have hspec := not_special_of_hasSpecial_false _ hq2
    have hnq : '"' ∉ transCell col v := fun hm =>
      (hspec '"' (mem_doubleQuotes _ _ hm)).1 rfl
    rw [doubleQuotes_eq_self _ hnq]
    rw [doubleQuotes_eq_self _ hnq] at hspec
    rw [parse_plain_run (transCell col v) hspec ('\n' :: r) [] fs rs]
    rfl

/-- Parsing one serialized record: at the end of the text it closes the
record; before a newline it closes the record and continues. -/
theorem parse_record (ps : List (Str × Str)) :
    ∀ p fs rs,
      (parseCsvAux (joinSep [','] ((p :: ps).map (fun q => escapeCell q.1 q.2)))
          QState.outQ [] fs rs
        = rs ++ [fs ++ (p :: ps).map (fun q => transCell q.1 q.2)]) ∧
      (∀ r, parseCsvAux
          (joinSep [','] ((p :: ps).map (fun q => escapeCell q.1 q.2)) ++ '\n' :: r)
          QState.outQ [] fs rs
        = parseCsvAux r QState.outQ [] []
            (rs ++ [fs ++ (p :: ps).map (fun q => transCell q.1 q.2)])) := by
  induction ps with
  | nil =>
    intro p fs rs
    constructor
    · show parseCsvAux (escapeCell p.1 p.2) QState.outQ [] fs rs = _
      rw [parse_cell_end]
      rfl
    · intro r
      show parseCsvAux (escapeCell p.1 p.2 ++ '\n' :: r) QState.outQ [] fs rs = _
      rw [parse_cell_nl]
      rfl
  | cons q qs ih =>
    intro p fs rs
    have hjoin : joinSep [','] ((p :: q :: qs).map (fun x => escapeCell x.1 x.2)) =
        escapeCell p.1 p.2 ++
          ',' :: joinSep [','] ((q :: qs).map (fun x => escapeCell x.1 x.2)) := by
      show escapeCell p.1 p.2 ++ [','] ++
          joinSep [','] ((q :: qs).map (fun x => escapeCell x.1 x.2)) = _
      rw [List.append_assoc]
      rfl
    constructor
    · rw [hjoin, parse_cell_comma, (ih q (fs ++ [transCell p.1 p.2]) rs).1]
      simp
    · intro r
      have hjoin2 : joinSep [','] ((p :: q :: qs).map (fun x => escapeCell x.1 x.2)) ++
          '\n' :: r =
          escapeCell p.1 p.2 ++ ',' ::
            (joinSep [','] ((q :: qs).map (fun x => escapeCell x.1 x.2)) ++ '\n' :: r) := by
        rw [hjoin]
        simp
      rw [hjoin2, parse_cell_comma, (ih q (fs ++ [transCell p.1 p.2]) rs).2 r]
      simp

/-- Parsing several serialized records joined by newlines yields exactly their
committed values, record by record. -/
theorem parse_lines (ls : List (List (Str × Str))) :
    ∀ l, l ≠ [] → (∀ x ∈ ls, x ≠ []) → ∀ rs,
      parseCsvAux (joinSep ['\n'] ((l :: ls).map
          (fun ps => joinSep [','] (ps.map (fun q => escapeCell q.1 q.2)))))
        QState.outQ [] [] rs
      = rs ++ (l :: ls).map (fun ps => ps.map (fun q => transCell q.1 q.2)) := by
  induction ls with
  | nil =>
    intro l hl _ rs
    cases l with
    | nil => exact absurd rfl hl
    | cons p ptail =>
      show parseCsvAux (joinSep [','] ((p :: ptail).map (fun q => escapeCell q.1 q.2)))
        QState.outQ [] [] rs = _
      rw [(parse_record ptail p [] rs).1]
      simp
  | cons l2 ls ih =>
    intro l hl hls rs
    cases l with
    | nil => exact absurd rfl hl
    | cons p ptail =>
      have hjoin :
          joinSep ['\n'] (((p :: ptail) :: l2 :: ls).map
            (fun ps => joinSep [','] (ps.map (fun q => escapeCell q.1 q.2)))) =
          joinSep [','] ((p :: ptail).map (fun q => escapeCell q.1 q.2)) ++
            '\n' :: joinSep ['\n'] ((l2 :: ls).map
              (fun ps => joinSep [','] (ps.map (fun q => escapeCell q.1 q.2)))) := by
        show joinSep [','] ((p :: ptail).map (fun q => escapeCell q.1 q.2)) ++ ['\n'] ++
            joinSep ['\n'] ((l2 :: ls).map
              (fun ps => joinSep [','] (ps.map (fun q => escapeCell q.1 q.2)))) = _
        rw [List.append_assoc]
        rfl
      rw [hjoin, (parse_record ptail p [] rs).2]
      rw [ih l2 (hls l2 (by simp)) (fun x hx => hls x (by simp [hx]))
        (rs ++ [[] ++ (p :: ptail).map (fun q => transCell q.1 q.2)])]
      simp

/-- C9: the CSV text generated from manual-input rows round-trips — parsing it
with a standard CSV reader recovers the header and, for every row, exactly the
trimmed cell values, except that an empty `M-Risk Factors` cell has been
replaced by the literal `none` (`transCell`). -/
theorem manual_csv_round_trip (rows : List (List Str))
    (hlen : ∀ r ∈ rows, r.length = manualColumns.length) :
    parseCsv (csvText rows) =
      manualColumns ::
        rows.map (fun r => (manualColumns.zip r).map (fun p => transCell p.1 p.2)) := by
  unfold parseCsv csvText
  have hheader : joinSep [','] manualColumns =
      joinSep [','] ((manualColumns.zip manualColumns).map
        (fun q => escapeCell q.1 q.2)) := by decide
  have hlist : (joinSep [','] ((manualColumns.zip manualColumns).map
        (fun q => escapeCell q.1 q.2))) :: rows.map serializeRow =
      ((manualColumns.zip manualColumns) ::
          rows.map (fun r => manualColumns.zip r)).map
        (fun ps => joinSep [','] (ps.map (fun q => escapeCell q.1 q.2))) := by
    simp only [List.map_cons, List.map_map]
    rfl
  rw [hheader, hlist]
  rw [parse_lines (rows.map (fun r => manualColumns.zip r))
    (manualColumns.zip manualColumns) (by decide) ?hne []]
  case hne =>
    intro x hx
    rcases List.mem_map.mp hx with ⟨r, hr, rfl⟩
    intro hnil
    have hzlen := congrArg List.length hnil
    rw [List.length_zip, hlen r hr] at hzlen
    simp at hzlen
    exact absurd hzlen (by decide)
  simp only [List.nil_append, List.map_cons, List.map_map]
  have hhv : (manualColumns.zip manualColumns).map (fun q => transCell q.1 q.2) =
      manualColumns := by decide
  rw [hhv]
  rfl

theorem manual_csv_round_trip_witness :
    parseCsv (csvText [[" 1 ".toList, "2024-01-01".toList, "2024-01-07".toList,
        [], "male".toList, "80".toList, "1".toList, "2.5".toList, "60".toList],
      ["2".toList, [], [], "a,b".toList, "fe\"male".toList, "x\ny".toList,
        [], [], []]]) =
      manualColumns ::
        [[" 1 ".toList, "2024-01-01".toList, "2024-01-07".toList,
            [], "male".toList, "80".toList, "1".toList, "2.5".toList, "60".toList],
          ["2".toList, [], [], "a,b".toList, "fe\"male".toList, "x\ny".toList,
            [], [], []]].map
          (fun r => (manualColumns.zip r).map (fun p => transCell p.1 p.2)) := by
  exact manual_csv_round_trip _ (by decide)

end HT
